import Mathlib

/-!
# Shallow embedding of `fmp_soma_vadis.py`

The source library computes the probability mass function of a sum of
independent discrete random variables from their individual PMFs, with four
strategies: `somaVADs_biv` (pairwise bivariate aggregation), `somaVADs_conv`
(grid convolution), `somaVADs_FFT` (spectral) and `somaVADs_hib` (hybrid).

Modelling conventions, matching the spec's "under exact arithmetic" reading:

* numpy float64 values and probabilities are modelled as exact rationals `ℚ`;
* a distribution (an N×2 numpy array, column 0 = values, column 1 =
  probabilities) is the list of its rows;
* Python exceptions are modelled by `Except Err`, with distinct constructors
  for the distinct failure sources of the source code;
* the destructive consumption of the caller-supplied worklist by
  `somaVADs_biv` / `somaVADs_conv` (`list.pop` / `list.append`) is modelled by
  returning, next to the result, the final state of the caller's list; the
  purely reading functions `somaVADs_FFT` / `somaVADs_hib` likewise return the
  (unchanged) caller list;
* `np.fft.fft(p, n=L) ** r` followed by `np.fft.ifft` and `.real`, applied to
  real vectors, is modelled by its exact-arithmetic value: the `r`-fold
  cyclic (length `L`) self-convolution of `p` zero-padded/cropped to length
  `L`.  Over exact complex arithmetic the two agree (the DFT turns cyclic
  convolution into pointwise multiplication and the result of an inverse DFT
  of such a product of transforms of real vectors is real), so this is the
  faithful exact-arithmetic semantics of the source lines.
-/

namespace SomaVads

/-- A discrete distribution: the rows `(value, probability)` of the 2-column
numpy array used by the source. -/
abbrev Dist := List (ℚ × ℚ)

/-- The Python exceptions the source can raise, by their distinct sources:
`indexError` for indexing/popping an empty list or array (Python
`IndexError`), `shapeError` for `np.vstack` on rows of different lengths
(numpy raises `ValueError` from inside the array machinery), `domainError`
for the single explicit `raise ValueError(...)` in `somaVADs_hib`, and
`fftError` for `np.fft.fft(x, n=0)` (numpy raises `ValueError` for an
invalid number of FFT points). -/
inductive Err where
  | indexError
  | shapeError
  | domainError
  | fftError
deriving DecidableEq

/-- Column 1 of a distribution: its probability vector (`X[:,1]`). -/
def probsOf (D : Dist) : List ℚ := D.map Prod.snd

/-- The total probability mass of a distribution. -/
def pSum (D : Dist) : ℚ := (probsOf D).sum

/-- First row of a distribution (`X[0]`); callers guard emptiness, the
default is never reached on the guarded paths. -/
def headRow : Dist → ℚ × ℚ
  | [] => (0, 0)
  | p :: _ => p

/-- Last row of a distribution (`X[-1]`); callers guard emptiness. -/
def lastRow : Dist → ℚ × ℚ
  | [] => (0, 0)
  | [p] => p
  | _ :: p :: rest => lastRow (p :: rest)

/-- `start, start + step, ...` of the given length. -/
def arangeFrom (start step : ℚ) : ℕ → List ℚ
  | 0 => []
  | n + 1 => start :: arangeFrom (start + step) step n

/-- Number of elements of `np.arange(start, stop, step)`:
`max 0 ⌈(stop - start)/step⌉`.  (numpy rejects `step = 0`; the `0` returned
here for that case is turned into an error by every caller's subsequent
length/shape check.) -/
def arangeLen (start stop step : ℚ) : ℕ :=
  if step = 0 then 0 else (⌈(stop - start) / step⌉).toNat

/-- `np.arange(start, stop, step)` over exact rationals. -/
def arangeQ (start stop step : ℚ) : List ℚ :=
  arangeFrom start step (arangeLen start stop step)

/-- Elementwise sum of two rational vectors, the shorter padded with zeros. -/
def addPad : List ℚ → List ℚ → List ℚ
  | [], ys => ys
  | x :: xs, [] => x :: xs
  | x :: xs, y :: ys => (x + y) :: addPad xs ys

/-- `np.convolve(a, b, mode="full")` over exact rationals: the coefficient
list of the product of the polynomials with coefficient lists `a` and `b`
(entry `k` is `∑_{i+j=k} a_i * b_j`), of length `a.length + b.length - 1` for
non-empty inputs.  (numpy rejects empty operands; both callers fail on an
`indexError` before ever reaching `np.convolve` with an empty operand.) -/
def convQ : List ℚ → List ℚ → List ℚ
  | [], _ => []
  | _ :: _, [] => []
  | a :: as, b :: bs => addPad ((b :: bs).map (fun y => a * y)) (0 :: convQ as (b :: bs))

/-- `VADs[0][VADs[0][:,0].argsort()]`: the rows permuted so that the value
column is ascending. -/
def sortRows (D : Dist) : Dist :=
  List.insertionSort (fun p q => p.1 ≤ q.1) D

/-- One step of building the Python dict `P_Z` (CPython 3.6 dicts preserve
insertion order): add `p` to the entry of key `v`, or append a new entry. -/
def upsert : List (ℚ × ℚ) → ℚ → ℚ → List (ℚ × ℚ)
  | [], v, p => [(v, p)]
  | (k, q) :: rest, v, p =>
    if k = v then (k, q + p) :: rest else (k, q) :: upsert rest v p

/-- The dict-building loop of `somaVADs_biv`: aggregate the `(sum, prob)`
pairs by exact equality of the sum, keeping first-occurrence key order. -/
def dictFold (pairs : List (ℚ × ℚ)) : Dist :=
  pairs.foldl (fun acc vp => upsert acc vp.1 vp.2) []

/-- `zip(somas.ravel(), F_W.ravel())` where `somas = np.add.outer(X1[:,0],
X2[:,0])` and `F_W = np.multiply.outer(X1[:,1], X2[:,1])`: row-major
traversal of the outer sum/product of the two distributions. -/
def outerPairs (X1 X2 : Dist) : List (ℚ × ℚ) :=
  X1.flatMap (fun p => X2.map (fun q => (p.1 + q.1, p.2 * q.2)))

/-- One merge step of `somaVADs_biv`: the aggregated bivariate distribution
`par_Z_PZ` built from the two popped distributions. -/
def bivMerge (X1 X2 : Dist) : Dist :=
  dictFold (outerPairs X1 X2)

/-- The effect of `X1 = l.pop(); X2 = l.pop()`: the last element, the new
last element, and the remaining prefix; `none` when fewer than two elements
are present (Python raises `IndexError`). -/
def pop2 {α : Type} (l : List α) : Option (α × α × List α) :=
  match l.reverse with
  | x1 :: x2 :: rest => some (x1, x2, rest.reverse)
  | _ => none

/-- Recursion of `somaVADs_biv`, with explicit fuel (one unit per merge, so
`fuel = length` never runs out; the fuel-exhaustion row is unreachable then).
Returns the result together with the final state of the caller's list. -/
def bivGo : ℕ → List Dist → Except Err Dist × List Dist
  | _, [] => (.error .indexError, [])
  | _, [x] => (.ok (sortRows x), [x])
  | 0, x :: y :: l => (.error .indexError, x :: y :: l)
  | fuel + 1, x :: y :: l =>
    match pop2 (x :: y :: l) with
    | none => (.error .indexError, x :: y :: l)
    | some (X1, X2, rest) => bivGo fuel (rest ++ [bivMerge X1 X2])

/-- `somaVADs_biv(VADs)`: result and final state of the caller's list. -/
def somaVADs_biv_run (l : List Dist) : Except Err Dist × List Dist :=
  bivGo l.length l

/-- One merge step of `somaVADs_conv`: the new axis
`np.arange(S_X1[0] + S_X2[0], S_X1[-1] + S_X2[-1] + delta, delta)` zipped
(`np.vstack([S_Z, P_Z]).T`) with the full convolution of the probability
columns; `np.vstack` raises when the two lengths differ. -/
def convMerge (X1 X2 : Dist) (δ : ℚ) : Except Err Dist :=
  if X1.isEmpty || X2.isEmpty then .error .indexError
  else if (arangeQ ((headRow X1).1 + (headRow X2).1)
        ((lastRow X1).1 + (lastRow X2).1 + δ) δ).length
      = (convQ (probsOf X1) (probsOf X2)).length then
    .ok ((arangeQ ((headRow X1).1 + (headRow X2).1)
      ((lastRow X1).1 + (lastRow X2).1 + δ) δ).zip
      (convQ (probsOf X1) (probsOf X2)))
  else .error .shapeError

/-- Recursion of `somaVADs_conv`, fuelled like `bivGo`.  NOTE the faithful
translation of line 112 of the source: the recursive call
`somaVADs_conv(VADs)` does not forward `delta`, so every merge after the
first runs with the default `delta = 1`. -/
def convGo : ℕ → List Dist → ℚ → Except Err Dist × List Dist
  | _, [], _ => (.error .indexError, [])
  | _, [x], _ => (.ok x, [x])
  | 0, x :: y :: l, _ => (.error .indexError, x :: y :: l)
  | fuel + 1, x :: y :: l, δ =>
    match pop2 (x :: y :: l) with
    | none => (.error .indexError, x :: y :: l)
    | some (X1, X2, rest) =>
      match convMerge X1 X2 δ with
      | .error e => (.error e, rest)
      | .ok M => convGo fuel (rest ++ [M]) 1

/-- `somaVADs_conv(VADs, delta)`: result and final state of the caller's
list. -/
def somaVADs_conv_run (l : List Dist) (δ : ℚ) : Except Err Dist × List Dist :=
  convGo l.length l δ

/-- Zero-pad (or crop) a vector to length `L`, as `np.fft.fft(p, n=L)` does
to its input before transforming. -/
def padTo (L : ℕ) (p : List ℚ) : List ℚ :=
  p.take L ++ List.replicate (L - p.length) 0

/-- The length-`L` discrete unit impulse, the identity of cyclic
convolution (its DFT is the all-ones vector). -/
def impulse (L : ℕ) : List ℚ :=
  padTo L [1]

/-- Length-`L` cyclic convolution: entry `k` is
`∑_{(i+j) mod L = k} a_i * b_j` over the length-`L` paddings of `a`, `b`.
Multiplying DFTs of length `L` is the DFT of this operation, so it is the
exact-arithmetic meaning of the source's products of transforms. -/
def cconv (L : ℕ) (a b : List ℚ) : List ℚ :=
  (List.range L).map (fun k =>
    ((List.range L).map (fun i =>
      (padTo L a).getD i 0 * (padTo L b).getD ((k + L - i) % L) 0)).sum)

/-- `r`-th cyclic-convolution power of a vector at length `L`: the
exact-arithmetic meaning of `np.fft.ifft(np.fft.fft(p, n=L) ** r).real` for
a natural exponent `r` (for `r = 0` numpy's all-ones transform is the DFT of
the unit impulse).  The source never exponentiates a transform by a negative
number on a path that returns (the hybrid rejects `rep < 1`; a negative
repetition fed to `somaVADs_FFT` yields numerically meaningless output there,
which no claim is about). -/
def cpow (L : ℕ) (p : List ℚ) : ℕ → List ℚ
  | 0 => impulse L
  | r + 1 => cconv L p (cpow L p r)

/-- `somaVADs_FFT(VADs, delta)`: result and (unchanged — the function only
reads its argument) caller's list.  An empty input list makes
`np.fft.ifft(np.prod([], axis=0))` raise (0-d input), and an empty
distribution makes the `mins`/`maxs` comprehensions raise `IndexError`;
both are the `indexError` guard. -/
def somaVADs_FFT_run (VADs : List (Dist × ℤ)) (δ : ℚ) :
    Except Err Dist × List (Dist × ℤ) :=
  (if VADs.isEmpty || VADs.any (fun v => v.1.isEmpty) then .error .indexError
   else
     let SZmin := (VADs.map (fun v => (v.2 : ℚ) * (headRow v.1).1)).sum
     let SZmax := (VADs.map (fun v => (v.2 : ℚ) * (lastRow v.1).1)).sum
     let S_Z := arangeQ SZmin (SZmax + δ) δ
     if S_Z.length = 0 then .error .fftError
     else
       .ok (S_Z.zip (VADs.foldl
         (fun acc v => cconv S_Z.length acc (cpow S_Z.length (probsOf v.1) v.2.toNat))
         (impulse S_Z.length))),
   VADs)

/-- Phase 1 of `somaVADs_hib`: the `for` loop building `dif_VADs`, processed
in list order, stopping at the first exception.  `rep == 1` passes the
distribution through; `rep > 1` builds the `rep`-fold self-sum through the
transform (see `cpow`); anything else is the explicit
`raise ValueError(...)` — the domain error. -/
def hibFold1 (δ : ℚ) : List (Dist × ℤ) → Except Err (List Dist)
  | [] => .ok []
  | (VAD, rep) :: rest =>
    if rep = 1 then
      (hibFold1 δ rest).map (fun difs => VAD :: difs)
    else if 1 < rep then
      if VAD.isEmpty then .error .indexError
      else if (arangeQ ((rep : ℚ) * (headRow VAD).1)
            ((rep : ℚ) * (lastRow VAD).1 + δ) δ).length = 0 then .error .fftError
      else (hibFold1 δ rest).map (fun difs =>
        ((arangeQ ((rep : ℚ) * (headRow VAD).1)
            ((rep : ℚ) * (lastRow VAD).1 + δ) δ).zip
          (cpow (arangeQ ((rep : ℚ) * (headRow VAD).1)
              ((rep : ℚ) * (lastRow VAD).1 + δ) δ).length
            (probsOf VAD) rep.toNat)) :: difs)
    else .error .domainError

/-- `somaVADs_hib(VADs, delta)`: result and (unchanged — phase 2's
destructive reduction consumes only the freshly built internal `dif_VADs`)
caller's list.  NOTE the faithful translation of line 222 of the source:
`return somaVADs_conv( dif_VADs )` does not forward `delta`, so phase 2
always runs the grid convolution with the default `delta = 1`. -/
def somaVADs_hib_run (VADs : List (Dist × ℤ)) (δ : ℚ) :
    Except Err Dist × List (Dist × ℤ) :=
  ((match hibFold1 δ VADs with
    | .error e => .error e
    | .ok difs => (somaVADs_conv_run difs 1).1),
   VADs)

/-! ## Helper lemmas -/

/-- Ceilings as floors, so that concrete evaluations can use the floor
normalisation of `norm_num`. -/
theorem ceil_as_floor (x : ℚ) : ⌈x⌉ = -⌊-x⌋ := by
  rw [← neg_neg x, Int.ceil_neg, neg_neg]

theorem pop2_eq {α : Type} {l r : List α} {x1 x2 : α}
    (h : pop2 l = some (x1, x2, r)) : l = r ++ [x2, x1] := by
  unfold pop2 at h
  cases hrev : l.reverse with
  | nil => rw [hrev] at h; simp at h
  | cons a t =>
    cases t with
    | nil => rw [hrev] at h; simp at h
    | cons b rest =>
      rw [hrev] at h
      simp only [Option.some.injEq, Prod.mk.injEq] at h
      obtain ⟨ha, hb, hr⟩ := h
      have hl : l = (a :: b :: rest).reverse := by
        rw [← hrev, List.reverse_reverse]
      subst ha hb
      rw [← hr]
      simpa using hl

theorem addPad_sum : ∀ x y : List ℚ, (addPad x y).sum = x.sum + y.sum
  | [], ys => by simp [addPad]
  | x :: xs, [] => by simp [addPad]
  | x :: xs, y :: ys => by
    simp only [addPad, List.sum_cons, addPad_sum xs ys]
    ring

theorem sum_map_mul {α : Type} (a : ℚ) (f : α → ℚ) : ∀ l : List α,
    (l.map (fun y => a * f y)).sum = a * (l.map f).sum
  | [] => by simp
  | x :: xs => by
    simp only [List.map_cons, List.sum_cons, sum_map_mul a f xs]
    ring

theorem convQ_sum : ∀ a b : List ℚ, (convQ a b).sum = a.sum * b.sum
  | [], b => by simp [convQ]
  | a :: as, [] => by simp [convQ]
  | a :: as, b :: bs => by
    have hm := sum_map_mul a (fun y => y) (b :: bs)
    simp only [List.map_id_fun', id] at hm
    simp only [convQ, addPad_sum, List.sum_cons, convQ_sum as (b :: bs), hm,
      List.map_id]
    ring

theorem upsert_snd_sum : ∀ (acc : List (ℚ × ℚ)) (v p : ℚ),
    ((upsert acc v p).map Prod.snd).sum = (acc.map Prod.snd).sum + p
  | [], v, p => by simp [upsert]
  | (k, q) :: rest, v, p => by
    by_cases h : k = v
    · simp only [upsert, if_pos h, List.map_cons, List.sum_cons]
      ring
    · simp only [upsert, if_neg h, List.map_cons, List.sum_cons,
        upsert_snd_sum rest v p]
      ring

theorem foldl_upsert_snd_sum : ∀ (pairs acc : List (ℚ × ℚ)),
    ((pairs.foldl (fun acc vp => upsert acc vp.1 vp.2) acc).map Prod.snd).sum
      = (acc.map Prod.snd).sum + (pairs.map Prod.snd).sum
  | [], acc => by simp
  | vp :: rest, acc => by
    simp only [List.foldl_cons, List.map_cons, List.sum_cons,
      foldl_upsert_snd_sum rest (upsert acc vp.1 vp.2), upsert_snd_sum]
    ring

theorem outerPairs_snd_sum : ∀ X1 X2 : Dist,
    ((outerPairs X1 X2).map Prod.snd).sum = pSum X1 * pSum X2
  | [], X2 => by simp [outerPairs, pSum, probsOf]
  | p :: X1, X2 => by
    have ih := outerPairs_snd_sum X1 X2
    have hrow : ((X2.map (fun q => (p.1 + q.1, p.2 * q.2))).map Prod.snd).sum
        = p.2 * pSum X2 := by
      rw [List.map_map]
      have := sum_map_mul p.2 Prod.snd X2
      simp only [Function.comp] at *
      simpa [pSum, probsOf] using this
    simp only [outerPairs, List.flatMap_cons, List.map_append, List.sum_append] at *
    rw [hrow, ih]
    simp only [pSum, probsOf, List.map_cons, List.sum_cons]
    ring

theorem bivMerge_pSum (X1 X2 : Dist) : pSum (bivMerge X1 X2) = pSum X1 * pSum X2 := by
  have h := foldl_upsert_snd_sum (outerPairs X1 X2) []
  simp only [List.map_nil, List.sum_nil, zero_add] at h
  have h2 := outerPairs_snd_sum X1 X2
  simp only [bivMerge, dictFold, pSum, probsOf]
  rw [h]
  simpa [pSum, probsOf] using h2

theorem upsert_fst : ∀ (acc : List (ℚ × ℚ)) (v p : ℚ),
    (upsert acc v p).map Prod.fst
      = if v ∈ acc.map Prod.fst then acc.map Prod.fst
        else acc.map Prod.fst ++ [v]
  | [], v, p => by simp [upsert]
  | (k, q) :: rest, v, p => by
    by_cases h : k = v
    · simp [upsert, if_pos h, h]
    · have hkv : ¬ v = k := fun hvk => h hvk.symm
      by_cases hm : v ∈ rest.map Prod.fst
      · simp [upsert, if_neg h, upsert_fst rest v p, hm, hkv]
      · simp [upsert, if_neg h, upsert_fst rest v p, hm, hkv]

theorem upsert_fst_nodup (acc : List (ℚ × ℚ)) (v p : ℚ)
    (h : (acc.map Prod.fst).Nodup) : ((upsert acc v p).map Prod.fst).Nodup := by
  rw [upsert_fst]
  by_cases hm : v ∈ acc.map Prod.fst
  · simpa [hm]
  · simp only [hm, if_false, List.nodup_append]
    refine ⟨h, by simp, ?_⟩
    intro a ha hb
    simp only [List.mem_singleton] at hb
    subst hb
    exact hm ha

theorem foldl_upsert_nodup : ∀ (pairs acc : List (ℚ × ℚ)),
    (acc.map Prod.fst).Nodup →
    ((pairs.foldl (fun acc vp => upsert acc vp.1 vp.2) acc).map Prod.fst).Nodup
  | [], _, h => by simpa using h
  | vp :: rest, acc, h => by
    simp only [List.foldl_cons]
    exact foldl_upsert_nodup rest _ (upsert_fst_nodup acc vp.1 vp.2 h)

theorem bivMerge_fst_nodup (X1 X2 : Dist) :
    ((bivMerge X1 X2).map Prod.fst).Nodup :=
  foldl_upsert_nodup _ [] (by simp)

instance : IsTotal (ℚ × ℚ) (fun p q => p.1 ≤ q.1) := ⟨fun a b => le_total a.1 b.1⟩

instance : IsTrans (ℚ × ℚ) (fun p q => p.1 ≤ q.1) := ⟨fun _ _ _ h1 h2 => le_trans h1 h2⟩

theorem sortRows_perm (D : Dist) : (sortRows D).Perm D :=
  List.perm_insertionSort _ D

theorem sortRows_sorted (D : Dist) :
    List.Sorted (fun p q : ℚ × ℚ => p.1 ≤ q.1) (sortRows D) :=
  List.sorted_insertionSort _ D

theorem sortRows_pSum (D : Dist) : pSum (sortRows D) = pSum D :=
  List.Perm.sum_eq (List.Perm.map Prod.snd (sortRows_perm D))

theorem sortRows_fst_nodup {D : Dist} (h : (D.map Prod.fst).Nodup) :
    ((sortRows D).map Prod.fst).Nodup :=
  (List.Perm.nodup_iff (List.Perm.map Prod.fst (sortRows_perm D))).mpr h

theorem sorted_nodup_strict {l : Dist}
    (hs : List.Sorted (fun p q : ℚ × ℚ => p.1 ≤ q.1) l)
    (hn : (l.map Prod.fst).Nodup) :
    List.Pairwise (fun p q : ℚ × ℚ => p.1 < q.1) l := by
  have hne : List.Pairwise (fun p q : ℚ × ℚ => p.1 ≠ q.1) l :=
    List.pairwise_map.mp hn
  exact (List.Pairwise.and hs hne).imp (fun h => lt_of_le_of_ne h.1 h.2)

theorem lastRow_mem : ∀ (D : Dist), D ≠ [] → lastRow D ∈ D
  | [], h => absurd rfl h
  | [p], _ => by simp [lastRow]
  | p :: q :: rest, _ => by
    simp only [lastRow]
    exact List.mem_cons_of_mem p (lastRow_mem (q :: rest) (by simp))

theorem headRow_le_lastRow {D : Dist} (hne : D ≠ [])
    (hs : List.Sorted (fun a b : ℚ × ℚ => a.1 ≤ b.1) D) :
    (headRow D).1 ≤ (lastRow D).1 := by
  match D, hne with
  | p :: rest, _ =>
    have hmem := lastRow_mem (p :: rest) (by simp)
    rcases List.mem_cons.mp hmem with h | h
    · simp [headRow, h]
    · exact (List.sorted_cons.mp hs).1 _ h

theorem arangeFrom_length (step : ℚ) : ∀ (n : ℕ) (start : ℚ),
    (arangeFrom start step n).length = n
  | 0, _ => rfl
  | n + 1, start => by
    simp only [arangeFrom, List.length_cons, arangeFrom_length step n (start + step)]

theorem arangeQ_length (start stop step : ℚ) :
    (arangeQ start stop step).length = arangeLen start stop step :=
  arangeFrom_length step _ start

theorem arangeLen_pos {start stop step : ℚ} (hstep : 0 < step) (h : start < stop) :
    arangeLen start stop step ≠ 0 := by
  unfold arangeLen
  rw [if_neg (ne_of_gt hstep)]
  have hpos : (0 : ℚ) < (stop - start) / step := div_pos (by linarith) hstep
  have hceil : 0 < ⌈(stop - start) / step⌉ := Int.ceil_pos.mpr hpos
  omega

/-! ## Invariants of the two worklist reducers -/

theorem bivGo_pSum (fuel : ℕ) : ∀ (l : List Dist) (D : Dist),
    (∀ X ∈ l, pSum X = 1) → (bivGo fuel l).1 = .ok D → pSum D = 1 := by
  induction fuel with
  | zero =>
    intro l D hall h
    match l with
    | [] => simp [bivGo] at h
    | [x] =>
      simp only [bivGo, Except.ok.injEq] at h
      rw [← h, sortRows_pSum]
      exact hall x (by simp)
    | x :: y :: t => simp [bivGo] at h
  | succ fuel ih =>
    intro l D hall h
    match l with
    | [] => simp [bivGo] at h
    | [x] =>
      simp only [bivGo, Except.ok.injEq] at h
      rw [← h, sortRows_pSum]
      exact hall x (by simp)
    | x :: y :: t =>
      cases hp : pop2 (x :: y :: t) with
      | none => simp [bivGo, hp] at h
      | some a =>
        obtain ⟨X1, X2, rest⟩ := a
        simp only [bivGo, hp] at h
        have hl := pop2_eq hp
        refine ih (rest ++ [bivMerge X1 X2]) D ?_ h
        intro X hX
        rcases List.mem_append.mp hX with hX | hX
        · exact hall X (by rw [hl]; exact List.mem_append_left _ hX)
        · have hXm : X = bivMerge X1 X2 := by simpa using hX
          subst hXm
          have h1 : pSum X1 = 1 := hall X1 (by rw [hl]; simp)
          have h2 : pSum X2 = 1 := hall X2 (by rw [hl]; simp)
          rw [bivMerge_pSum, h1, h2, mul_one]

theorem bivGo_final (fuel : ℕ) : ∀ (l : List Dist) (D : Dist),
    (bivGo fuel l).1 = .ok D → (bivGo fuel l).2.length = 1 := by
  induction fuel with
  | zero =>
    intro l D h
    match l with
    | [] => simp [bivGo] at h
    | [x] => simp [bivGo]
    | x :: y :: t => simp [bivGo] at h
  | succ fuel ih =>
    intro l D h
    match l with
    | [] => simp [bivGo] at h
    | [x] => simp [bivGo]
    | x :: y :: t =>
      cases hp : pop2 (x :: y :: t) with
      | none => simp [bivGo, hp] at h
      | some a =>
        obtain ⟨X1, X2, rest⟩ := a
        simp only [bivGo, hp] at h ⊢
        exact ih (rest ++ [bivMerge X1 X2]) D h

theorem bivGo_strict (fuel : ℕ) : ∀ (l : List Dist) (D : Dist), 2 ≤ l.length →
    (bivGo fuel l).1 = .ok D →
    List.Pairwise (fun p q : ℚ × ℚ => p.1 < q.1) D := by
  induction fuel with
  | zero =>
    intro l D h2 h
    match l with
    | [] => simp at h2
    | [x] => simp at h2
    | x :: y :: t => simp [bivGo] at h
  | succ fuel ih =>
    intro l D h2 h
    match l with
    | [] => simp at h2
    | [x] => simp at h2
    | x :: y :: t =>
      cases hp : pop2 (x :: y :: t) with
      | none => simp [bivGo, hp] at h
      | some a =>
        obtain ⟨X1, X2, rest⟩ := a
        simp only [bivGo, hp] at h
        cases rest with
        | nil =>
          simp only [List.nil_append, bivGo, Except.ok.injEq] at h
          rw [← h]
          exact sorted_nodup_strict (sortRows_sorted _)
            (sortRows_fst_nodup (bivMerge_fst_nodup X1 X2))
        | cons r rs =>
          refine ih ((r :: rs) ++ [bivMerge X1 X2]) D ?_ h
          simp

theorem convMerge_err {X1 X2 : Dist} {δ : ℚ} {e : Err}
    (h : convMerge X1 X2 δ = .error e) :
    e = .indexError ∨ e = .shapeError := by
  unfold convMerge at h
  split at h
  · exact Or.inl (by simpa using h.symm)
  · split at h
    · simp at h
    · exact Or.inr (by simpa using h.symm)

theorem convMerge_pSum {X1 X2 : Dist} {δ : ℚ} {M : Dist}
    (h : convMerge X1 X2 δ = .ok M) : pSum M = pSum X1 * pSum X2 := by
  unfold convMerge at h
  split at h
  · simp at h
  · split at h
    · rename_i hlen
      simp only [Except.ok.injEq] at h
      rw [← h]
      have hmap : (List.map Prod.snd
          ((arangeQ ((headRow X1).1 + (headRow X2).1)
            ((lastRow X1).1 + (lastRow X2).1 + δ) δ).zip
            (convQ (probsOf X1) (probsOf X2))))
          = convQ (probsOf X1) (probsOf X2) :=
        List.map_snd_zip _ _ (le_of_eq hlen.symm)
      simp only [pSum, probsOf] at *
      rw [hmap, convQ_sum]
    · simp at h

theorem convGo_pSum (fuel : ℕ) : ∀ (l : List Dist) (δ : ℚ) (D : Dist),
    (∀ X ∈ l, pSum X = 1) → (convGo fuel l δ).1 = .ok D → pSum D = 1 := by
  induction fuel with
  | zero =>
    intro l δ D hall h
    match l with
    | [] => simp [convGo] at h
    | [x] =>
      simp only [convGo, Except.ok.injEq] at h
      rw [← h]
      exact hall x (by simp)
    | x :: y :: t => simp [convGo] at h
  | succ fuel ih =>
    intro l δ D hall h
    match l with
    | [] => simp [convGo] at h
    | [x] =>
      simp only [convGo, Except.ok.injEq] at h
      rw [← h]
      exact hall x (by simp)
    | x :: y :: t =>
      cases hp : pop2 (x :: y :: t) with
      | none => simp [convGo, hp] at h
      | some a =>
        obtain ⟨X1, X2, rest⟩ := a
        cases hm : convMerge X1 X2 δ with
        | error e => simp [convGo, hp, hm] at h
        | ok M =>
          simp only [convGo, hp, hm] at h
          have hl := pop2_eq hp
          refine ih (rest ++ [M]) 1 D ?_ h
          intro X hX
          rcases List.mem_append.mp hX with hX | hX
          · exact hall X (by rw [hl]; exact List.mem_append_left _ hX)
          · have hXm : X = M := by simpa using hX
            subst hXm
            have h1 : pSum X1 = 1 := hall X1 (by rw [hl]; simp)
            have h2 : pSum X2 = 1 := hall X2 (by rw [hl]; simp)
            rw [convMerge_pSum hm, h1, h2, mul_one]

theorem convGo_final (fuel : ℕ) : ∀ (l : List Dist) (δ : ℚ) (D : Dist),
    (convGo fuel l δ).1 = .ok D → (convGo fuel l δ).2.length = 1 := by
  induction fuel with
  | zero =>
    intro l δ D h
    match l with
    | [] => simp [convGo] at h
    | [x] => simp [convGo]
    | x :: y :: t => simp [convGo] at h
  | succ fuel ih =>
    intro l δ D h
    match l with
    | [] => simp [convGo] at h
    | [x] => simp [convGo]
    | x :: y :: t =>
      cases hp : pop2 (x :: y :: t) with
      | none => simp [convGo, hp] at h
      | some a =>
        obtain ⟨X1, X2, rest⟩ := a
        cases hm : convMerge X1 X2 δ with
        | error e => simp [convGo, hp, hm] at h
        | ok M =>
          simp only [convGo, hp, hm] at h ⊢
          exact ih (rest ++ [M]) 1 D h

theorem convGo_no_domain (fuel : ℕ) : ∀ (l : List Dist) (δ : ℚ),
    (convGo fuel l δ).1 ≠ .error .domainError := by
  induction fuel with
  | zero =>
    intro l δ
    match l with
    | [] => simp [convGo]
    | [x] => simp [convGo]
    | x :: y :: t => simp [convGo]
  | succ fuel ih =>
    intro l δ
    match l with
    | [] => simp [convGo]
    | [x] => simp [convGo]
    | x :: y :: t =>
      cases hp : pop2 (x :: y :: t) with
      | none => simp [convGo, hp]
      | some a =>
        obtain ⟨X1, X2, rest⟩ := a
        cases hm : convMerge X1 X2 δ with
        | error e =>
          simp only [convGo, hp, hm]
          rcases convMerge_err hm with he | he <;> simp [he]
        | ok M =>
          simp only [convGo, hp, hm]
          exact ih (rest ++ [M]) 1

/-! ## The hybrid's phase-1 loop -/

theorem hibFold1_domain_of_bad : ∀ (VADs : List (Dist × ℤ)) (δ : ℚ),
    0 < δ →
    (∀ p ∈ VADs, p.1 ≠ [] ∧ List.Sorted (fun a b : ℚ × ℚ => a.1 ≤ b.1) p.1) →
    (∃ p ∈ VADs, p.2 < 1) → hibFold1 δ VADs = .error .domainError
  | [], _, _, _, hex => by simp at hex
  | (VAD, rep) :: rest, δ, hδ, hwf, hex => by
    have hwfrest : ∀ p ∈ rest,
        p.1 ≠ [] ∧ List.Sorted (fun a b : ℚ × ℚ => a.1 ≤ b.1) p.1 :=
      fun p hp => hwf p (List.mem_cons_of_mem _ hp)
    by_cases h1 : rep = 1
    · have hrest : ∃ p ∈ rest, p.2 < 1 := by
        rcases hex with ⟨p, hp, hbad⟩
        rcases List.mem_cons.mp hp with hph | hp
        · rw [hph] at hbad; simp only [h1] at hbad; omega
        · exact ⟨p, hp, hbad⟩
      rw [hibFold1, if_pos h1, hibFold1_domain_of_bad rest δ hδ hwfrest hrest]
      rfl
    · by_cases h2 : 1 < rep
      · obtain ⟨hne, hsort⟩ := hwf (VAD, rep) (List.mem_cons_self _ _)
        have hemp : VAD.isEmpty = false := by
          simp [List.isEmpty_iff, hne]
        have hle : (headRow VAD).1 ≤ (lastRow VAD).1 := headRow_le_lastRow hne hsort
        have hr0 : (0 : ℚ) ≤ (rep : ℚ) := by
          exact_mod_cast (by omega : (0 : ℤ) ≤ rep)
        have hstart : (rep : ℚ) * (headRow VAD).1
            < (rep : ℚ) * (lastRow VAD).1 + δ := by
          have hmul := mul_le_mul_of_nonneg_left hle hr0
          linarith
        have hL := arangeLen_pos hδ hstart
        have hrest : ∃ p ∈ rest, p.2 < 1 := by
          rcases hex with ⟨p, hp, hbad⟩
          rcases List.mem_cons.mp hp with hph | hp
          · rw [hph] at hbad; simp only at hbad; omega
          · exact ⟨p, hp, hbad⟩
        rw [hibFold1, if_neg h1, if_pos h2, if_neg (by simp [hemp]),
          if_neg (by rw [arangeQ_length]; exact hL),
          hibFold1_domain_of_bad rest δ hδ hwfrest hrest]
        rfl
      · rw [hibFold1, if_neg h1, if_neg h2]

theorem hibFold1_ok_of_good : ∀ (VADs : List (Dist × ℤ)) (δ : ℚ),
    0 < δ →
    (∀ p ∈ VADs, p.1 ≠ [] ∧ List.Sorted (fun a b : ℚ × ℚ => a.1 ≤ b.1) p.1) →
    (∀ p ∈ VADs, 1 ≤ p.2) → ∃ difs, hibFold1 δ VADs = .ok difs
  | [], _, _, _, _ => ⟨[], rfl⟩
  | (VAD, rep) :: rest, δ, hδ, hwf, hgood => by
    obtain ⟨difs, hd⟩ := hibFold1_ok_of_good rest δ hδ
      (fun p hp => hwf p (List.mem_cons_of_mem _ hp))
      (fun p hp => hgood p (List.mem_cons_of_mem _ hp))
    by_cases h1 : rep = 1
    · exact ⟨VAD :: difs, by rw [hibFold1, if_pos h1, hd]; rfl⟩
    · have hg : (1 : ℤ) ≤ rep := hgood (VAD, rep) (List.mem_cons_self _ _)
      have h2 : 1 < rep := by omega
      obtain ⟨hne, hsort⟩ := hwf (VAD, rep) (List.mem_cons_self _ _)
      have hemp : VAD.isEmpty = false := by
        simp [List.isEmpty_iff, hne]
      have hle : (headRow VAD).1 ≤ (lastRow VAD).1 := headRow_le_lastRow hne hsort
      have hr0 : (0 : ℚ) ≤ (rep : ℚ) := by
        exact_mod_cast (by omega : (0 : ℤ) ≤ rep)
      have hstart : (rep : ℚ) * (headRow VAD).1
          < (rep : ℚ) * (lastRow VAD).1 + δ := by
        have hmul := mul_le_mul_of_nonneg_left hle hr0
        linarith
      have hL := arangeLen_pos hδ hstart
      refine ⟨((arangeQ ((rep : ℚ) * (headRow VAD).1)
            ((rep : ℚ) * (lastRow VAD).1 + δ) δ).zip
          (cpow (arangeQ ((rep : ℚ) * (headRow VAD).1)
              ((rep : ℚ) * (lastRow VAD).1 + δ) δ).length
            (probsOf VAD) rep.toNat)) :: difs, ?_⟩
      rw [hibFold1, if_neg h1, if_pos h2, if_neg (by simp [hemp]),
        if_neg (by rw [arangeQ_length]; exact hL), hd]
      rfl

/-! ## The claims -/

/-- C1: the spec claims that, for grid-aligned inputs with shared spacing
`delta`, `somaVADs_hib` returns the same sum distribution as `somaVADs_FFT`
called with the same inputs and the same `delta`, with the hybrid's value
axis stepped by `delta` for every `delta`.  The code contradicts this (and
its own docstring): line 222 calls `somaVADs_conv(dif_VADs)` without
forwarding `delta`, so phase 2 runs at the default spacing 1.  At `delta =
2`, with two aligned three-point distributions of repetition 1, the spectral
combiner returns the exact sum PMF on the step-2 axis while the hybrid
builds a 9-point step-1 axis against a 5-point convolution and raises from
`np.vstack` instead. -/
theorem hib_delta_not_forwarded :
    (somaVADs_hib_run [([(0, 1/2), (2, 1/4), (4, 1/4)], 1),
        ([(0, 1/2), (2, 1/4), (4, 1/4)], 1)] 2).1
      = .error .shapeError ∧
    (somaVADs_FFT_run [([(0, 1/2), (2, 1/4), (4, 1/4)], 1),
        ([(0, 1/2), (2, 1/4), (4, 1/4)], 1)] 2).1
      = .ok [(0, 1/4), (2, 1/4), (4, 5/16), (6, 1/8), (8, 1/16)] := by
  constructor
  · norm_num [somaVADs_hib_run, hibFold1, Except.map, somaVADs_conv_run, convGo,
      convMerge, pop2, arangeQ, arangeLen, ceil_as_floor, arangeFrom, convQ,
      addPad, probsOf, headRow, lastRow]
  · norm_num [somaVADs_FFT_run, arangeQ, arangeLen, ceil_as_floor, arangeFrom,
      cconv, cpow, impulse, padTo, probsOf, headRow, lastRow, List.range_succ]

/-- C2: the spec claims every merge of `somaVADs_conv` builds its axis
stepped by the given `delta` and that the final result is the exact sum PMF.
The code contradicts this (and its own docstring): the recursive call on
line 112 drops `delta`, so every merge after the first runs at spacing 1.
With `delta = 2` and three two-point distributions on the step-2 grid, the
second merge builds a 7-point step-1 axis against a 4-point convolution and
`np.vstack` raises instead of producing the exact PMF. -/
theorem conv_recursion_drops_delta :
    (somaVADs_conv_run [[(0, 1/2), (2, 1/2)], [(0, 1/2), (2, 1/2)],
        [(0, 1/2), (2, 1/2)]] 2).1
      = .error .shapeError := by
  norm_num [somaVADs_conv_run, convGo, convMerge, pop2, arangeQ, arangeLen,
    ceil_as_floor, arangeFrom, convQ, addPad, probsOf, headRow, lastRow]

/-- C3: the spec claims `somaVADs_biv` and `somaVADs_conv` agree on every
non-empty worklist of well-formed distributions on a common grid of spacing
`delta`.  Because `somaVADs_conv`'s recursive call drops `delta` (line 112),
at `delta = 2` with three two-point step-2 distributions the pairwise
combiner returns the exact sum PMF while the grid combiner raises. -/
theorem biv_conv_disagree_on_grid :
    (somaVADs_biv_run [[(0, 1/2), (2, 1/2)], [(0, 1/2), (2, 1/2)],
        [(0, 1/2), (2, 1/2)]]).1
      = .ok [(0, 1/8), (2, 3/8), (4, 3/8), (6, 1/8)] ∧
    (somaVADs_conv_run [[(0, 1/2), (2, 1/2)], [(0, 1/2), (2, 1/2)],
        [(0, 1/2), (2, 1/2)]] 2).1
      = .error .shapeError := by
  constructor
  · norm_num [somaVADs_biv_run, bivGo, bivMerge, pop2, dictFold, upsert,
      outerPairs, sortRows, List.insertionSort, List.orderedInsert, probsOf]
  · norm_num [somaVADs_conv_run, convGo, convMerge, pop2, arangeQ, arangeLen,
      ceil_as_floor, arangeFrom, convQ, addPad, probsOf, headRow, lastRow]

/-- C4: normalization is preserved.  If every distribution of the worklist
has total probability mass 1, then whenever `somaVADs_biv` or
`somaVADs_conv` returns normally, the returned distribution has total mass
exactly 1 (for empty worklists neither returns normally, so the statement
holds without a non-emptiness hypothesis). -/
theorem normalization_preserved :
    (∀ (l : List Dist) (D : Dist), (∀ X ∈ l, pSum X = 1) →
      (somaVADs_biv_run l).1 = .ok D → pSum D = 1) ∧
    (∀ (l : List Dist) (δ : ℚ) (D : Dist), (∀ X ∈ l, pSum X = 1) →
      (somaVADs_conv_run l δ).1 = .ok D → pSum D = 1) :=
  ⟨fun l D h hok => bivGo_pSum l.length l D h hok,
   fun l δ D h hok => convGo_pSum l.length l δ D h hok⟩

/-- Witness for C4 at concrete inputs: `somaVADs_biv` on two normalized
one-point distributions returns `[(1, 1)]`, and `somaVADs_conv` at
`delta = 2` on two normalized one-point distributions returns `[(2, 1)]`;
both have total mass 1 by the theorem. -/
theorem normalization_preserved_witness :
    pSum [((1 : ℚ), (1 : ℚ))] = 1 ∧ pSum [((2 : ℚ), (1 : ℚ))] = 1 := by
  constructor
  · refine normalization_preserved.1 [[(0, 1)], [(1, 1)]] [(1, 1)] ?_ ?_
    · intro X hX
      rcases List.mem_pair.mp hX with rfl | rfl <;> simp [pSum, probsOf]
    · norm_num [somaVADs_biv_run, bivGo, bivMerge, pop2, dictFold, upsert,
        outerPairs, sortRows, List.insertionSort, List.orderedInsert]
  · refine normalization_preserved.2 [[(0, 1)], [(2, 1)]] 2 [(2, 1)] ?_ ?_
    · intro X hX
      rcases List.mem_pair.mp hX with rfl | rfl <;> simp [pSum, probsOf]
    · norm_num [somaVADs_conv_run, convGo, convMerge, pop2, arangeQ, arangeLen,
        ceil_as_floor, arangeFrom, convQ, addPad, probsOf, headRow, lastRow]

/-- C5: degenerate single-distribution worklist.  `somaVADs_biv` returns the
distribution with its rows permuted into ascending value order (same rows,
so each value keeps its probability), leaving the worklist untouched, and
`somaVADs_conv` returns the distribution itself completely unchanged (hence
sorted only if the input already was). -/
theorem single_distribution_degenerate (D : Dist) (δ : ℚ) :
    somaVADs_biv_run [D] = (.ok (sortRows D), [D]) ∧
    (sortRows D).Perm D ∧
    List.Sorted (fun p q : ℚ × ℚ => p.1 ≤ q.1) (sortRows D) ∧
    somaVADs_conv_run [D] δ = (.ok D, [D]) :=
  ⟨rfl, sortRows_perm D, sortRows_sorted D, rfl⟩

/-- C6: for a positive spacing and well-formed (non-empty, value-sorted)
input distributions, `somaVADs_hib` raises its deliberate domain error
(`raise ValueError`) exactly when some repetition count is below 1, and it
never mutates the caller's list (in particular it leaves it unchanged when
it raises, and an error carries no partial result). -/
theorem hib_domain_error_iff (VADs : List (Dist × ℤ)) (δ : ℚ) (hδ : 0 < δ)
    (hwf : ∀ p ∈ VADs, p.1 ≠ [] ∧ List.Sorted (fun a b : ℚ × ℚ => a.1 ≤ b.1) p.1) :
    ((somaVADs_hib_run VADs δ).1 = .error .domainError ↔ ∃ p ∈ VADs, p.2 < 1) ∧
    (somaVADs_hib_run VADs δ).2 = VADs := by
  refine ⟨⟨?_, ?_⟩, rfl⟩
  · intro h
    by_contra hno
    push_neg at hno
    obtain ⟨difs, hok⟩ := hibFold1_ok_of_good VADs δ hδ hwf
      (fun p hp => by have := hno p hp; omega)
    simp only [somaVADs_hib_run, hok] at h
    exact convGo_no_domain difs.length difs 1 h
  · intro hex
    have hdom := hibFold1_domain_of_bad VADs δ hδ hwf hex
    simp [somaVADs_hib_run, hdom]

/-- Witness for C6: with spacing 1 and the well-formed input
`[(([(0, 1)]), 1), (([(0, 1)]), 0)]`, the hybrid raises the domain error
precisely because the second repetition count, 0, is below 1. -/
theorem hib_domain_error_iff_witness :
    ((somaVADs_hib_run [([((0 : ℚ), (1 : ℚ))], (1 : ℤ)), ([(0, 1)], 0)] 1).1
        = .error .domainError
      ↔ ∃ p ∈ [([((0 : ℚ), (1 : ℚ))], (1 : ℤ)), ([(0, 1)], 0)], p.2 < 1) ∧
    (somaVADs_hib_run [([((0 : ℚ), (1 : ℚ))], (1 : ℤ)), ([(0, 1)], 0)] 1).2
      = [([((0 : ℚ), (1 : ℚ))], (1 : ℤ)), ([(0, 1)], 0)] := by
  refine hib_domain_error_iff _ _ (by decide) ?_
  intro p hp
  rcases List.mem_pair.mp hp with rfl | rfl <;>
    exact ⟨by simp, List.sorted_singleton _⟩

/-- C7: the spec claims permuting the worklist never changes the result of
`somaVADs_conv` on grid-aligned inputs.  Because the recursive call drops
`delta`, at `delta = 3/4` the four aligned distributions below give a
normally returned (garbage-axis) distribution in one order, and an
`np.vstack` exception in another order of the same worklist. -/
theorem conv_order_dependent :
    List.Perm
      [[((0 : ℚ), (1 : ℚ)/3), (3/4, 1/3), (3/2, 1/3)],
       [((0 : ℚ), (1 : ℚ)/2), (3/4, 1/2)], [(0, 1/2), (3/4, 1/2)],
       [(0, 1/2), (3/4, 1/2)]]
      [[((0 : ℚ), (1 : ℚ)/2), (3/4, 1/2)], [(0, 1/2), (3/4, 1/2)],
       [(0, 1/2), (3/4, 1/2)],
       [((0 : ℚ), (1 : ℚ)/3), (3/4, 1/3), (3/2, 1/3)]] ∧
    (somaVADs_conv_run
      [[(0, 1/3), (3/4, 1/3), (3/2, 1/3)],
       [(0, 1/2), (3/4, 1/2)], [(0, 1/2), (3/4, 1/2)],
       [(0, 1/2), (3/4, 1/2)]] (3/4)).1
      = .ok [(0, 1/24), (1, 1/6), (2, 7/24), (3, 7/24), (4, 1/6), (5, 1/24)] ∧
    (somaVADs_conv_run
      [[(0, 1/2), (3/4, 1/2)], [(0, 1/2), (3/4, 1/2)], [(0, 1/2), (3/4, 1/2)],
       [(0, 1/3), (3/4, 1/3), (3/2, 1/3)]] (3/4)).1
      = .error .shapeError := by
  refine ⟨@List.perm_append_comm _
      [[((0 : ℚ), (1 : ℚ)/3), (3/4, 1/3), (3/2, 1/3)]]
      [[((0 : ℚ), (1 : ℚ)/2), (3/4, 1/2)], [(0, 1/2), (3/4, 1/2)],
       [(0, 1/2), (3/4, 1/2)]], ?_, ?_⟩
  · norm_num [somaVADs_conv_run, convGo, convMerge, pop2, arangeQ, arangeLen,
      ceil_as_floor, arangeFrom, convQ, addPad, probsOf, headRow, lastRow]
  · norm_num [somaVADs_conv_run, convGo, convMerge, pop2, arangeQ, arangeLen,
      ceil_as_floor, arangeFrom, convQ, addPad, probsOf, headRow, lastRow]

/-- C8: worklist consumption.  Whenever `somaVADs_biv` or `somaVADs_conv`
returns normally, the caller's list has been reduced to exactly one element,
and a one-element worklist is returned unchanged, still holding its original
element. -/
theorem worklist_consumed_to_singleton :
    (∀ (l : List Dist) (D : Dist), (somaVADs_biv_run l).1 = .ok D →
      (somaVADs_biv_run l).2.length = 1) ∧
    (∀ (l : List Dist), l.length = 1 → (somaVADs_biv_run l).2 = l) ∧
    (∀ (l : List Dist) (δ : ℚ) (D : Dist), (somaVADs_conv_run l δ).1 = .ok D →
      (somaVADs_conv_run l δ).2.length = 1) ∧
    (∀ (l : List Dist) (δ : ℚ), l.length = 1 → (somaVADs_conv_run l δ).2 = l) :=
  ⟨fun l D h => bivGo_final l.length l D h,
   fun l hl => by obtain ⟨x, rfl⟩ := List.length_eq_one.mp hl; rfl,
   fun l δ D h => convGo_final l.length l δ D h,
   fun l δ hl => by obtain ⟨x, rfl⟩ := List.length_eq_one.mp hl; rfl⟩

/-- Witness for C8: a two-element worklist is consumed down to one element
by `somaVADs_biv`, and a one-element worklist is left untouched by
`somaVADs_conv`. -/
theorem worklist_consumed_to_singleton_witness :
    (somaVADs_biv_run [[((0 : ℚ), (1 : ℚ))], [(1, 1)]]).2.length = 1 ∧
    (somaVADs_conv_run [[((5 : ℚ), (1 : ℚ))]] 3).2 = [[(5, 1)]] := by
  constructor
  · refine worklist_consumed_to_singleton.1 [[(0, 1)], [(1, 1)]] [(1, 1)] ?_
    norm_num [somaVADs_biv_run, bivGo, bivMerge, pop2, dictFold, upsert,
      outerPairs, sortRows, List.insertionSort, List.orderedInsert]
  · exact worklist_consumed_to_singleton.2.2.2 [[(5, 1)]] 3 rfl

/-- C9: for every worklist of two or more distributions on which
`somaVADs_biv` returns normally, the returned value column is strictly
increasing: ascending (the base case sorts) with no duplicate values (the
aggregation dict is keyed on the sum values). -/
theorem biv_output_strictly_increasing (l : List Dist) (D : Dist)
    (h2 : 2 ≤ l.length) (hok : (somaVADs_biv_run l).1 = .ok D) :
    List.Pairwise (fun p q : ℚ × ℚ => p.1 < q.1) D :=
  bivGo_strict l.length l D h2 hok

/-- Witness for C9: the sum of two fair coins on `{0, 1}` comes out as the
strictly increasing `[(0, 1/4), (1, 1/2), (2, 1/4)]`. -/
theorem biv_output_strictly_increasing_witness :
    List.Pairwise (fun p q : ℚ × ℚ => p.1 < q.1)
      [(0, 1/4), (1, 1/2), (2, 1/4)] := by
  refine biv_output_strictly_increasing
    [[(0, 1/2), (1, 1/2)], [(0, 1/2), (1, 1/2)]] _ (by decide) ?_
  norm_num [somaVADs_biv_run, bivGo, bivMerge, pop2, dictFold, upsert,
    outerPairs, sortRows, List.insertionSort, List.orderedInsert]

/-- C10: unlike the worklist reducers, `somaVADs_FFT` and `somaVADs_hib`
never mutate the caller's list: after any call it still is the very same
list (same length, same elements).  The hybrid's phase-2 destructive
reduction consumes only the freshly built internal `dif_VADs`. -/
theorem fft_hib_preserve_input (l : List (Dist × ℤ)) (δ : ℚ) :
    (somaVADs_FFT_run l δ).2 = l ∧ (somaVADs_hib_run l δ).2 = l :=
  ⟨rfl, rfl⟩

end SomaVads
